import Mathlib

/-!
Verification of the retrieval core of a document search engine.

The code under scrutiny lives in `client/src/lib/`:
- `langGraph.ts` (two textual versions of the query orchestrator and rank
  fusion, plus the `ShardedStorageManager` with its cache, bloom filters and
  centroid cosine similarity),
- `vectorStore.ts` (in-memory vector index, cosine similarity),
- `duckdb.ts` (lexical `keywordSearch`, shipped as an MVP stub).

JavaScript numbers are modelled by `ℚ` for the score pipeline (all the
constants involved, 0.7/0.3/100/30, are exact decimal fractions) and by `ℝ`
plus an explicit `JsNum` wrapper where NaN behaviour of division matters.
JS `Math.round` is `jsRound`, 32-bit wrap-around of the `<<` operator is
`toInt32`, the remainder operator `%` on integers is `Int.tmod` (both take
the sign of the dividend).  A JS `Map` (insertion ordered, unique keys) is
modelled by an association list with `JsMap.set`/`JsMap.get`/`JsMap.del`,
and `Array.prototype.sort` (stable since ES2019) by `List.insertionSort`
with the non-strict relation induced by the comparator, which produces the
same stable reordering.
-/

/-- JS `Math.round x` rounds to the nearest integer, halves toward `+∞`. -/
def jsRound (x : ℚ) : ℤ := Int.floor (x + 1/2)

namespace JsMap

/-- JS `Map.prototype.get`, on the association-list model of a `Map` with
string keys: the value of the first (on reachable maps: only) binding. -/
def get {α : Type} : List (String × α) → String → Option α
  | [], _ => none
  | p :: m, k => if p.1 = k then some p.2 else get m k

/-- JS `Map.prototype.set`: replace the binding in place if the key is
present (keeping its position), otherwise append the new binding. -/
def set {α : Type} : List (String × α) → String → α → List (String × α)
  | [], k, v => [(k, v)]
  | p :: m, k, v => if p.1 = k then (k, v) :: m else p :: set m k v

/-- JS `Map.prototype.delete`. -/
def del {α : Type} : List (String × α) → String → List (String × α)
  | [], _ => []
  | p :: m, k => if p.1 = k then del m k else p :: del m k

/-- JS `Map.prototype.values`, in insertion order. -/
def values {α : Type} (m : List (String × α)) : List α := m.map Prod.snd

/-- JS `Map.prototype.keys`, in insertion order. -/
def keys {α : Type} (m : List (String × α)) : List String := m.map Prod.fst

end JsMap

/-- The `SearchResult` record of `types.ts`.  `metadata` is carried opaquely
(the retrieval core copies it without inspecting it), modelled by a string. -/
structure SearchResult where
  documentId : String
  documentName : String
  documentType : String
  chunkId : String
  text : String
  score : ℚ
  matchPercentage : ℤ
  metadata : String
deriving DecidableEq

/-- Comparator order of `(a, b) => b.score - a.score`: `a` may come before
`b` exactly when `b.score ≤ a.score`. -/
def scoreGe (a b : SearchResult) : Prop := b.score ≤ a.score

instance : DecidableRel scoreGe := fun a b => inferInstanceAs (Decidable (b.score ≤ a.score))

instance : IsTotal SearchResult scoreGe := ⟨fun a b => le_total b.score a.score⟩

instance : IsTrans SearchResult scoreGe := ⟨fun _ _ _ h1 h2 => le_trans h2 h1⟩

/-- `Array.prototype.sort((a, b) => b.score - a.score)`: the stable sort by
descending score (JS sort is stable, so it coincides with insertion sort on
the induced non-strict relation). -/
def sortByScoreDesc (l : List SearchResult) : List SearchResult :=
  List.insertionSort scoreGe l

/-- Rank fusion, vector side (`langGraph.ts` 270–276): a vector result enters
the map with its score weighted by 0.7; the other fields are spread through. -/
def scaleVec (result : SearchResult) : SearchResult :=
  { result with score := result.score * (7/10) }

/-- Rank fusion, blend case (`langGraph.ts` 280–285): a keyword result whose
chunk is already present adds its 0.3-weighted score to the existing entry and
recomputes `matchPercentage` from the blended score. -/
def blendKeyword (existing result : SearchResult) : SearchResult :=
  let e1 := { existing with score := existing.score + result.score * (3/10) }
  { e1 with matchPercentage := jsRound (e1.score * 100) }

/-- Rank fusion, keyword-only case (`langGraph.ts` 286–292): a keyword result
whose chunk is not in the map enters with its score weighted by 0.3 and
`matchPercentage = Math.round(score * 30)` (of the unweighted score). -/
def scaleLex (result : SearchResult) : SearchResult :=
  { result with
    score := result.score * (3/10),
    matchPercentage := jsRound (result.score * 30) }

/-- First `forEach` of `rankAndCombineResults` (`langGraph.ts` 271–276). -/
def vectorPhase (m : List (String × SearchResult)) (vectorResults : List SearchResult) :
    List (String × SearchResult) :=
  vectorResults.foldl (fun m result => JsMap.set m result.chunkId (scaleVec result)) m

/-- Second `forEach` of `rankAndCombineResults` (`langGraph.ts` 279–293); the
source tests `resultMap.has` and then calls `get` with a non-null assertion,
modelled as one `match` on `get`. -/
def keywordPhase (m : List (String × SearchResult)) (keywordResults : List SearchResult) :
    List (String × SearchResult) :=
  keywordResults.foldl (fun m result =>
    match JsMap.get m result.chunkId with
    | some existing => JsMap.set m result.chunkId (blendKeyword existing result)
    | none => JsMap.set m result.chunkId (scaleLex result)) m

/-- Embeds `rankAndCombineResults` (`langGraph.ts`, first copy, lines
263–298): deduplicate by `chunkId` through a `Map`, weight vector scores by
0.7 and keyword scores by 0.3, blend chunks present in both, then sort the
values by descending score. -/
def rankAndCombineResults (vectorResults keywordResults : List SearchResult) :
    List SearchResult :=
  sortByScoreDesc (JsMap.values (keywordPhase (vectorPhase [] vectorResults) keywordResults))

/-- Embeds the second textual copy of `rankAndCombineResults` (`langGraph.ts`
lines 573–607, the reformatted file version), translated independently. -/
def rankAndCombineResultsV2 (vectorResults keywordResults : List SearchResult) :
    List SearchResult :=
  let resultMap : List (String × SearchResult) :=
    vectorResults.foldl (fun m result =>
      JsMap.set m result.chunkId { result with score := result.score * (7/10) }) []
  let resultMap2 : List (String × SearchResult) :=
    keywordResults.foldl (fun m result =>
      match JsMap.get m result.chunkId with
      | some existing =>
          JsMap.set m result.chunkId
            { existing with
              score := existing.score + result.score * (3/10),
              matchPercentage := jsRound ((existing.score + result.score * (3/10)) * 100) }
      | none =>
          JsMap.set m result.chunkId
            { result with
              score := result.score * (3/10),
              matchPercentage := jsRound (result.score * 30) }) resultMap
  sortByScoreDesc (JsMap.values resultMap2)

/-- The `DocumentChunk` record of `types.ts` restricted to the fields the
vector store reads; `embedding` is optional (generated on demand). -/
structure DocumentChunk where
  id : String
  documentId : String
  text : String
  embedding : Option (List ℚ)
  metadata : String
deriving DecidableEq

/-- One element of the module-level `vectorIndex` array of `vectorStore.ts`. -/
structure VectorEntry where
  chunkId : String
  documentId : String
  documentName : String
  documentType : String
  embedding : List ℚ
  metadata : String
deriving DecidableEq

/-- The vector-index entry built for one chunk by `addToVectorStore`
(`vectorStore.ts` 58–75): the chunk's own embedding if present, otherwise the
one produced by the `generateEmbeddings` collaborator, passed here as
`embedFn`. -/
def chunkToEntry (embedFn : String → List ℚ) (documentName documentType : String)
    (chunk : DocumentChunk) : VectorEntry :=
  { chunkId := chunk.id
    documentId := chunk.documentId
    documentName := documentName
    documentType := documentType
    embedding := match chunk.embedding with
      | some e => e
      | none => embedFn chunk.text
    metadata := chunk.metadata }

/-- Embeds `addToVectorStore` (`vectorStore.ts` 53–77): for each chunk,
generate the embedding if absent, persist it (an external effect outside this
model), and push an entry onto the in-memory index.  The source performs no
dimension check of any kind. -/
def addToVectorStore (embedFn : String → List ℚ) (vectorIndex : List VectorEntry)
    (chunks : List DocumentChunk) (documentName documentType : String) : List VectorEntry :=
  chunks.foldl (fun idx chunk => idx ++ [chunkToEntry embedFn documentName documentType chunk])
    vectorIndex

/-- Embeds `keywordSearch` (`duckdb.ts` 183–259) as shipped: the live body
logs and returns an empty array ("placeholder implementation for MVP"); the
normalisation/scoring pipeline appears only inside a comment block that is
not executed. -/
def keywordSearch (query : String) (limit : Nat) : List SearchResult := []

namespace ShardedStorageManager

/-- The `ShardCache` record of `langGraph.ts` (626–630); the `ArrayBuffer` is
modelled by its byte sequence, whose length is `byteLength`. -/
structure ShardCache where
  shardId : String
  data : List Nat
  lastAccessed : Int
deriving DecidableEq

/-- The `cache : Map<string, ShardCache>` member, in the association-list
model of a JS `Map`. -/
abbrev Cache := List (String × ShardCache)

/-- The constant `MAX_CACHE_SIZE = 200 * 1024 * 1024` of `langGraph.ts` 633. -/
def MAX_CACHE_SIZE : Nat := 200 * 1024 * 1024

/-- Embeds `getCacheSize` (`langGraph.ts` 720–723): sum of `byteLength` over
the cached values. -/
def getCacheSize (cache : Cache) : Nat :=
  (JsMap.values cache).foldl (fun sum c => sum + c.data.length) 0

/-- Comparator order of `([, a], [, b]) => a.lastAccessed - b.lastAccessed`. -/
def accessedLe (a b : String × ShardCache) : Prop :=
  a.2.lastAccessed ≤ b.2.lastAccessed

instance : DecidableRel accessedLe :=
  fun a b => inferInstanceAs (Decidable (a.2.lastAccessed ≤ b.2.lastAccessed))

instance : IsTotal (String × ShardCache) accessedLe :=
  ⟨fun a b => le_total a.2.lastAccessed b.2.lastAccessed⟩

instance : IsTrans (String × ShardCache) accessedLe :=
  ⟨fun _ _ _ h1 h2 => le_trans h1 h2⟩

/-- The expression `Array.from(this.cache.entries()).sort(([, a], [, b]) =>
a.lastAccessed - b.lastAccessed)[0]` of `updateCache` (`langGraph.ts`
702–703): the first entry of the cache stably sorted by ascending
`lastAccessed`. -/
def oldestEntry (cache : Cache) : Option (String × ShardCache) :=
  (List.insertionSort accessedLe cache).head?

/-- The `while` loop of `updateCache` (`langGraph.ts` 701–707): while the new
payload does not fit the byte budget, delete the least-recently-accessed
entry.  When the cache is empty and the payload still does not fit, the JS
loop never terminates (`oldest` is `undefined`, nothing is deleted and the
condition cannot change); that divergence is modelled by `none`.  Each
successful iteration removes an entry, so fuel `cache.length` suffices to
reach either exit. -/
def evictLoop : Nat → Cache → Nat → Option Cache
  | 0, cache, incoming =>
      if MAX_CACHE_SIZE < getCacheSize cache + incoming then none else some cache
  | fuel + 1, cache, incoming =>
      if MAX_CACHE_SIZE < getCacheSize cache + incoming then
        match oldestEntry cache with
        | some oldest => evictLoop fuel (JsMap.del cache oldest.1) incoming
        | none => none
      else some cache

/-- Embeds `updateCache` (`langGraph.ts` 699–718): evict until the new entry
fits, then insert it with the current time (`Date.now()`, passed explicitly
as `now`); the IndexedDB write that follows is an external effect outside
this model. -/
def updateCache (cache : Cache) (shardId : String) (data : List Nat) (now : Int) :
    Option Cache :=
  (evictLoop cache.length cache data.length).map
    (fun c => JsMap.set c shardId { shardId := shardId, data := data, lastAccessed := now })

/-- A sequence of `updateCache` calls, each op giving shard id, payload bytes
and insertion time; `none` as soon as one call diverges. -/
def applyInserts (ops : List (String × List Nat × Int)) (cache : Cache) : Option Cache :=
  match ops with
  | [] => some cache
  | op :: rest =>
      match updateCache cache op.1 op.2.1 op.2.2 with
      | some cache2 => applyInserts rest cache2
      | none => none

/-- JS `ToInt32`: wrap an integer into `[-2^31, 2^31)`, as the `<<` operator
does to its operand and result. -/
def toInt32 (n : Int) : Int := (n + 2 ^ 31) % 2 ^ 32 - 2 ^ 31

/-- Embeds `simpleHash` (`langGraph.ts` 759–763):
`hash = ((hash << 5) - hash) + charCode` over the characters of the string.
Only the `<<` truncates to 32 bits; the subtraction and addition are exact
(and stay exact in a JS double for the string lengths that occur here).
`charCodeAt` agrees with the Unicode code point on the basic plane. -/
def simpleHash (str : String) : Int :=
  str.data.foldl (fun hash c => toInt32 (toInt32 hash * 32) - hash + (c.toNat : Int)) 0

/-- Embeds `checkBloomFilter` (`langGraph.ts` 753–757):
`filter.charAt(hash % filter.length) === '1'`.  JS `%` truncates toward zero
(`Int.tmod`), so a negative hash yields a negative index, where `charAt`
returns the empty string, which never equals `"1"`; likewise for an empty
filter.  Both out-of-range cases are the `false` branch. -/
def checkBloomFilter (filter : String) (term : String) : Bool :=
  let idx : Int := Int.tmod (simpleHash term) (filter.data.length : Int)
  if 0 ≤ idx ∧ idx.toNat < filter.data.length then
    filter.data.getD idx.toNat ' ' == '1'
  else
    false

/-- Modelled from the spec: the bloom-filter insertion operation is absent
from the sources (only the membership test `checkBloomFilter` appears).  Per
the spec's description of the sketch — "single hash, char-indexed" — adding a
term sets the filter character at index `simpleHash term % filter.length` to
`'1'`; an out-of-range (negative) index can set nothing and leaves the filter
unchanged.  Insertion never changes the filter's length. -/
def addToBloomFilter (filter : String) (term : String) : String :=
  let idx : Int := Int.tmod (simpleHash term) (filter.data.length : Int)
  if 0 ≤ idx ∧ idx.toNat < filter.data.length then
    ⟨filter.data.set idx.toNat '1'⟩
  else
    filter

end ShardedStorageManager

/-- A JS number as far as the similarity computations are concerned: either a
finite value or one of the special values division can produce. -/
inductive JsNum where
  | num (x : ℝ)
  | posInf
  | negInf
  | nan

open Classical in
/-- JS floating-point division: finite quotient for a nonzero divisor,
`±Infinity` for a nonzero dividend over zero, `NaN` for `0 / 0`. -/
noncomputable def jsDiv (a b : ℝ) : JsNum :=
  if b = 0 then
    if a = 0 then JsNum.nan else if 0 < a then JsNum.posInf else JsNum.negInf
  else JsNum.num (a / b)

/-- The running sum `dotProduct += a[i] * b[i]` over the common indices (the
loops in both sources run over equal-length vectors). -/
noncomputable def dotProduct (a b : List ℝ) : ℝ := (List.zipWith (fun x y => x * y) a b).sum

/-- The running sum `norm += a[i] * a[i]`. -/
noncomputable def sumSquares (a : List ℝ) : ℝ := (a.map (fun x => x * x)).sum

namespace VectorStore

open Classical in
/-- Embeds `cosineSimilarity` (`vectorStore.ts` 125–148): throw (modelled by
`Except.error`) on a length mismatch; compute the two magnitudes with
`Math.sqrt`; return exactly 0 when either magnitude is `=== 0`; otherwise
divide the dot product by the product of magnitudes. -/
noncomputable def cosineSimilarity (a b : List ℝ) : Except String JsNum :=
  if a.length ≠ b.length then Except.error "Vectors must have the same dimensions"
  else
    let magnitudeA := Real.sqrt (sumSquares a)
    let magnitudeB := Real.sqrt (sumSquares b)
    if magnitudeA = 0 ∨ magnitudeB = 0 then Except.ok (JsNum.num 0)
    else Except.ok (jsDiv (dotProduct a b) (magnitudeA * magnitudeB))

end VectorStore

namespace ShardedStorageManager

/-- Embeds `ShardedStorageManager.cosineSimilarity` (`langGraph.ts` 778–790):
`dotProduct / (Math.sqrt(normA) * Math.sqrt(normB))` with no guard of any
kind — for zero-magnitude input the division is `0 / 0`. -/
noncomputable def cosineSimilarity (a b : List ℝ) : JsNum :=
  jsDiv (dotProduct a b) (Real.sqrt (sumSquares a) * Real.sqrt (sumSquares b))

end ShardedStorageManager

/-- The `Context` record threaded through the search graph (`langGraph.ts`
7–17 and 309–319). -/
structure Context where
  query : String
  originalQuery : String
  language : String
  isDualSearch : Bool
  vectorResults : List SearchResult
  keywordResults : List SearchResult
  combinedResults : List SearchResult
  keywords : List String
  errorMessage : Option String
deriving DecidableEq

/-- Outcomes of the awaited collaborator calls inside the graph nodes, one
per `try` block: `extractKeywords`, `vectorSearch`, `keywordSearch`.  An
`Except.error` value plays the part of the thrown exception that the node's
`catch` receives. -/
structure SearchOutcomes where
  extractOutcome : Except String (List String)
  vectorOutcome : Except String (List SearchResult)
  keywordOutcome : Except String (List SearchResult)

/-- The `start` node (`langGraph.ts` 332–340). -/
def startProcess (c : Context) : Context := { c with originalQuery := c.query }

/-- The `detectLanguage` node of the second file version (`langGraph.ts`
343–356): the detector call is commented out and the language is the literal
`"english"`; nothing in the `try` can throw. -/
def detectLanguageProcess (c : Context) : Context := { c with language := "english" }

/-- The `catch` fallback of the `extractKeywords` node (`langGraph.ts`
366–368): split the query on whitespace and keep words longer than 2. -/
def fallbackKeywords (query : String) : List String :=
  (query.split (fun ch => ch.isWhitespace)).filter (fun w => 2 < w.length)

/-- The `extractKeywords` node (`langGraph.ts` 359–373). -/
def extractKeywordsProcess (o : SearchOutcomes) (c : Context) : Context :=
  match o.extractOutcome with
  | Except.ok ks => { c with keywords := ks }
  | Except.error _ => { c with keywords := fallbackKeywords c.query }

/-- The `executeVectorSearch` node (`langGraph.ts` 376–390): on a throw from
the vector search the results become `[]` and the error message is set. -/
def executeVectorSearchProcess (o : SearchOutcomes) (c : Context) : Context :=
  match o.vectorOutcome with
  | Except.ok rs => { c with vectorResults := rs }
  | Except.error _ =>
      { c with vectorResults := [], errorMessage := some "Vector search failed" }

/-- The `executeKeywordSearch` node (`langGraph.ts` 393–405): on a throw the
results become `[]` (no error message is recorded for this branch). -/
def executeKeywordSearchProcess (o : SearchOutcomes) (c : Context) : Context :=
  match o.keywordOutcome with
  | Except.ok rs => { c with keywordResults := rs }
  | Except.error _ => { c with keywordResults := [] }

/-- The `waitForDualSearch` node (`langGraph.ts` 408–432): the first
execution fuses the two branch buffers (both `vectorResults` and
`keywordResults` are always arrays, hence truthy in the source's guard). -/
def waitForDualSearchProcess (c : Context) : Context :=
  if c.isDualSearch = false then
    { c with
      isDualSearch := true,
      combinedResults := rankAndCombineResults c.vectorResults c.keywordResults }
  else c

/-- The `end` node (`langGraph.ts` 435–441). -/
def endProcess (c : Context) : Context := c

/-- One entry of the `nodes` record (`langGraph.ts` 330–442). -/
structure GraphNode where
  id : String
  process : SearchOutcomes → Context → Context
  next : List String

/-- The `nodes` record itself, keyed by node id; an unknown id is the
`undefined` lookup of the source. -/
def nodes : String → Option GraphNode
  | "start" => some ⟨"start", fun _ => startProcess, ["detectLanguage"]⟩
  | "detectLanguage" => some ⟨"detectLanguage", fun _ => detectLanguageProcess, ["extractKeywords"]⟩
  | "extractKeywords" =>
      some ⟨"extractKeywords", extractKeywordsProcess, ["executeVectorSearch", "executeKeywordSearch"]⟩
  | "executeVectorSearch" =>
      some ⟨"executeVectorSearch", executeVectorSearchProcess, ["waitForDualSearch"]⟩
  | "executeKeywordSearch" =>
      some ⟨"executeKeywordSearch", executeKeywordSearchProcess, ["waitForDualSearch"]⟩
  | "waitForDualSearch" => some ⟨"waitForDualSearch", fun _ => waitForDualSearchProcess, ["end"]⟩
  | "end" => some ⟨"end", fun _ => endProcess, []⟩
  | _ => none

/-- Embeds `executeNodeBranch` (`langGraph.ts` 538–570): process nodes along
a linear path, stopping before `waitForDualSearch` (or at a fork, a terminal
node, or an unknown id).  The JS loop only ever visits the fixed acyclic
graph above; the fuel argument makes the recursion structural and is chosen
large enough to never run out on it. -/
def executeNodeBranch (o : SearchOutcomes) : Nat → String → Context → Context
  | 0, _, c => c
  | fuel + 1, startNodeId, c =>
      match nodes startNodeId with
      | none => c
      | some node =>
          let c2 := node.process o c
          match node.next with
          | [next1] =>
              if next1 = "waitForDualSearch" then c2 else executeNodeBranch o fuel next1 c2
          | _ => c2

/-- The main `while` loop of `executeSearchGraph`, second version
(`langGraph.ts` 464–502): walk single-successor nodes; at a fork, run every
not-yet-visited successor as a branch (the `Promise.all` later awaits them
in this same order) and stop.  Returns the main context and the branch
contexts. -/
def mainLoop (o : SearchOutcomes) : Nat → String → Context → List String → Context × List Context
  | 0, _, c, _ => (c, [])
  | fuel + 1, currentNodeId, c, visited =>
      match nodes currentNodeId with
      | none => (c, [])
      | some node =>
          let c2 := node.process o c
          let visited2 := visited ++ [currentNodeId]
          match node.next with
          | [] => (c2, [])
          | [next1] => mainLoop o fuel next1 c2 visited2
          | nexts =>
              (c2, (nexts.filter (fun b => !(visited2.contains b))).map
                (fun b => executeNodeBranch o 10 b c2))

/-- The fresh context built at the top of `executeSearchGraph`
(`langGraph.ts` 448–457). -/
def initialContext (query : String) : Context :=
  { query := query, originalQuery := query, language := "", isDualSearch := false,
    vectorResults := [], keywordResults := [], combinedResults := [], keywords := [],
    errorMessage := none }

/-- The merge of one awaited branch context into the running context
(`langGraph.ts` 509–516): spread the branch context over the current one,
then overwrite the two result buffers with the concatenations. -/
def mergeBranch (c b : Context) : Context :=
  { b with
    vectorResults := c.vectorResults ++ b.vectorResults,
    keywordResults := c.keywordResults ++ b.keywordResults }

/-- Embeds `executeSearchGraph` (second version, `langGraph.ts` 445–535) up
to its final return: run the main loop from `start`, await and merge the
spawned branches, then run the `waitForDualSearch` node on the merged
context.  The result is the final context the return statements read. -/
def executeSearchGraphCtx (o : SearchOutcomes) (query : String) : Context :=
  let walk := mainLoop o 10 "start" (initialContext query) []
  if walk.2.isEmpty then walk.1
  else
    let merged := walk.2.foldl mergeBranch walk.1
    match nodes "waitForDualSearch" with
    | some waitNode => waitNode.process o merged
    | none => merged

/-- The return priority of `executeSearchGraph` (`langGraph.ts` 525–534):
combined results if non-empty, else vector results if non-empty, else
keyword results. -/
def executeSearchGraph (o : SearchOutcomes) (query : String) : List SearchResult :=
  let c := executeSearchGraphCtx o query
  if c.combinedResults.isEmpty = false then c.combinedResults
  else if c.vectorResults.isEmpty = false then c.vectorResults
  else c.keywordResults

/-- The result list a search branch leaves in its buffer: the returned list
on success, `[]` when the node's `catch` replaced a thrown error. -/
def outcomeResults : Except String (List SearchResult) → List SearchResult
  | Except.ok rs => rs
  | Except.error _ => []

/-- The keyword list left by the `extractKeywords` node. -/
def extractedKeywords : Except String (List String) → String → List String
  | Except.ok ks, _ => ks
  | Except.error _, q => fallbackKeywords q

/-- Lookup of a search result by chunk id (first occurrence), used to state
which input entry a fused output entry comes from. -/
def findByChunkId : List SearchResult → String → Option SearchResult
  | [], _ => none
  | r :: l, k => if r.chunkId = k then some r else findByChunkId l k

/-- Invariant of the fusion map: every binding's key is its value's chunk id. -/
def WellFormedMap (m : List (String × SearchResult)) : Prop :=
  ∀ p ∈ m, p.2.chunkId = p.1

/-- The vector hit of the spec's fusion scenario: chunk `A` with score 0.9. -/
def vecA : SearchResult := ⟨"doc1", "Doc One", "pdf", "A", "", 9/10, 90, ""⟩

/-- The first lexical hit of the scenario: chunk `A` with score 0.6. -/
def lexA : SearchResult := ⟨"doc1", "Doc One", "pdf", "A", "alpha text", 6/10, 0, ""⟩

/-- The second lexical hit of the scenario: chunk `B` with score 0.4. -/
def lexB : SearchResult := ⟨"doc2", "Doc Two", "pdf", "B", "beta text", 4/10, 0, ""⟩

/-- The fused entry for chunk `A`: fields of the vector entry, blended score
`0.9 × 0.7 + 0.6 × 0.3 = 0.81`, `matchPercentage` recomputed to 81. -/
def fusedA : SearchResult := ⟨"doc1", "Doc One", "pdf", "A", "", 81/100, 81, ""⟩

/-- The fused entry for chunk `B`: fields of the lexical entry, score
`0.4 × 0.3 = 0.12`, `matchPercentage = round(0.4 × 30) = 12`. -/
def fusedB : SearchResult := ⟨"doc2", "Doc Two", "pdf", "B", "beta text", 12/100, 12, ""⟩


namespace JsMap

theorem get_cons_pos {α : Type} (p : String × α) (m : List (String × α)) (k : String)
    (h : p.1 = k) : get (p :: m) k = some p.2 := by
  simp [get, h]

theorem get_cons_neg {α : Type} (p : String × α) (m : List (String × α)) (k : String)
    (h : p.1 ≠ k) : get (p :: m) k = get m k := by
  simp [get, h]

theorem set_cons_pos {α : Type} (p : String × α) (m : List (String × α)) (k : String) (v : α)
    (h : p.1 = k) : set (p :: m) k v = (k, v) :: m := by
  simp [set, h]

theorem set_cons_neg {α : Type} (p : String × α) (m : List (String × α)) (k : String) (v : α)
    (h : p.1 ≠ k) : set (p :: m) k v = p :: set m k v := by
  simp [set, h]

theorem get_set_self {α : Type} (m : List (String × α)) (k : String) (v : α) :
    get (set m k v) k = some v := by
  induction m with
  | nil => simp [set, get]
  | cons p m ih =>
      by_cases h : p.1 = k
      · rw [set_cons_pos p m k v h, get_cons_pos _ _ _ rfl]
      · rw [set_cons_neg p m k v h, get_cons_neg _ _ _ h, ih]

theorem get_set_ne {α : Type} (m : List (String × α)) (k k2 : String) (v : α)
    (hk : k2 ≠ k) : get (set m k v) k2 = get m k2 := by
  induction m with
  | nil =>
      show get [(k, v)] k2 = get [] k2
      rw [get_cons_neg _ _ _ (fun h => hk h.symm)]
  | cons p m ih =>
      by_cases h : p.1 = k
      · rw [set_cons_pos p m k v h, get_cons_neg _ _ _ (fun hh => hk hh.symm),
          get_cons_neg p m k2 (fun hh => hk (hh ▸ h ▸ rfl))]
      · rw [set_cons_neg p m k v h]
        by_cases h2 : p.1 = k2
        · rw [get_cons_pos _ _ _ h2, get_cons_pos _ _ _ h2]
        · rw [get_cons_neg _ _ _ h2, get_cons_neg _ _ _ h2, ih]

theorem set_ne_nil {α : Type} (m : List (String × α)) (k : String) (v : α) :
    set m k v ≠ [] := by
  cases m with
  | nil => simp [set]
  | cons p m =>
      by_cases h : p.1 = k
      · rw [set_cons_pos p m k v h]
        simp
      · rw [set_cons_neg p m k v h]
        simp

theorem mem_of_get {α : Type} (m : List (String × α)) (k : String) (t : α)
    (h : get m k = some t) : (k, t) ∈ m := by
  induction m with
  | nil => simp [get] at h
  | cons p m ih =>
      by_cases hp : p.1 = k
      · rw [get_cons_pos p m k hp] at h
        injection h with h
        have : p = (k, t) := by
          obtain ⟨a, b⟩ := p
          simp only at hp h
          rw [hp, h]
        rw [← this]
        exact List.mem_cons_self p m
      · rw [get_cons_neg p m k hp] at h
        exact List.mem_cons_of_mem _ (ih h)

theorem get_of_mem {α : Type} (m : List (String × α)) (k : String) (t : α)
    (hnd : (keys m).Nodup) (h : (k, t) ∈ m) : get m k = some t := by
  induction m with
  | nil => simp at h
  | cons p m ih =>
      simp only [keys, List.map_cons, List.nodup_cons] at hnd
      rcases List.mem_cons.mp h with h1 | h1
      · rw [← h1]
        exact get_cons_pos _ _ _ rfl
      · have hne : p.1 ≠ k := by
          intro he
          exact hnd.1 (he ▸ List.mem_map_of_mem Prod.fst h1)
        rw [get_cons_neg p m k hne]
        exact ih hnd.2 h1

theorem mem_keys_set {α : Type} (m : List (String × α)) (k : String) (v : α) (a : String) :
    a ∈ keys (set m k v) ↔ a = k ∨ a ∈ keys m := by
  induction m with
  | nil => simp [set, keys]
  | cons p m ih =>
      by_cases h : p.1 = k
      · rw [set_cons_pos p m k v h]
        simp only [keys, List.map_cons, List.mem_cons]
        rw [← h]
        tauto
      · rw [set_cons_neg p m k v h]
        simp only [keys, List.map_cons, List.mem_cons] at *
        rw [ih]
        tauto

theorem keys_nodup_set {α : Type} (m : List (String × α)) (k : String) (v : α)
    (hnd : (keys m).Nodup) : (keys (set m k v)).Nodup := by
  induction m with
  | nil => simp [set, keys]
  | cons p m ih =>
      simp only [keys, List.map_cons, List.nodup_cons] at hnd
      by_cases h : p.1 = k
      · rw [set_cons_pos p m k v h]
        simp only [keys, List.map_cons, List.nodup_cons]
        refine ⟨?_, hnd.2⟩
        rw [← h]
        exact hnd.1
      · rw [set_cons_neg p m k v h]
        simp only [keys, List.map_cons, List.nodup_cons]
        refine ⟨?_, ih hnd.2⟩
        intro hin
        rcases (mem_keys_set m k v p.1).mp hin with h1 | h1
        · exact h h1
        · exact hnd.1 h1

theorem mem_del {α : Type} (m : List (String × α)) (k : String) (p : String × α) :
    p ∈ del m k ↔ p ∈ m ∧ p.1 ≠ k := by
  induction m with
  | nil => simp [del]
  | cons q m ih =>
      by_cases h : q.1 = k
      · simp only [del, if_pos h, ih, List.mem_cons]
        constructor
        · tauto
        · rintro ⟨hq | hq, hne⟩
          · exact absurd (hq ▸ h) hne
          · exact ⟨hq, hne⟩
      · simp only [del, if_neg h, List.mem_cons, ih]
        constructor
        · rintro (hq | ⟨hq, hne⟩)
          · exact ⟨Or.inl hq, hq ▸ h⟩
          · exact ⟨Or.inr hq, hne⟩
        · rintro ⟨hq | hq, hne⟩
          · exact Or.inl hq
          · exact Or.inr ⟨hq, hne⟩

theorem del_sublist {α : Type} (m : List (String × α)) (k : String) :
    List.Sublist (del m k) m := by
  induction m with
  | nil => simp [del]
  | cons q m ih =>
      by_cases h : q.1 = k
      · simp only [del, if_pos h]
        exact ih.cons q
      · simp only [del, if_neg h]
        exact ih.cons₂ q

theorem values_set_subset {α : Type} (m : List (String × α)) (k : String) (v : α)
    (t : α) (h : t ∈ values (set m k v)) : t = v ∨ t ∈ values m := by
  induction m with
  | nil =>
      simp [set, values] at h
      exact Or.inl h
  | cons p m ih =>
      by_cases hp : p.1 = k
      · rw [set_cons_pos p m k v hp] at h
        simp only [values, List.map_cons, List.mem_cons] at h ⊢
        tauto
      · rw [set_cons_neg p m k v hp] at h
        simp only [values, List.map_cons, List.mem_cons] at h ⊢
        rcases h with h | h
        · tauto
        · rcases ih h with h1 | h1 <;> tauto

end JsMap

theorem sortByScoreDesc_perm (l : List SearchResult) : List.Perm (sortByScoreDesc l) l :=
  List.perm_insertionSort scoreGe l

theorem mem_sortByScoreDesc (l : List SearchResult) (t : SearchResult) :
    t ∈ sortByScoreDesc l ↔ t ∈ l :=
  (sortByScoreDesc_perm l).mem_iff

theorem sortByScoreDesc_sorted (l : List SearchResult) :
    (sortByScoreDesc l).Pairwise (fun a b => b.score ≤ a.score) :=
  List.sorted_insertionSort scoreGe l

theorem sortByScoreDesc_eq_nil_iff (l : List SearchResult) :
    sortByScoreDesc l = [] ↔ l = [] := by
  constructor
  · intro h
    have := (sortByScoreDesc_perm l).length_eq
    rw [h] at this
    exact List.length_eq_zero.mp this.symm
  · intro h
    rw [h]
    rfl

theorem findByChunkId_eq_none (V : List SearchResult) (k : String)
    (h : k ∉ V.map SearchResult.chunkId) : findByChunkId V k = none := by
  induction V with
  | nil => rfl
  | cons r V ih =>
      simp only [List.map_cons, List.mem_cons] at h
      push_neg at h
      have hne : r.chunkId ≠ k := fun he => h.1 he.symm
      simp only [findByChunkId, if_neg hne]
      exact ih h.2

theorem findByChunkId_eq_some (V : List SearchResult) (k : String) (r : SearchResult)
    (hnd : (V.map SearchResult.chunkId).Nodup) (hr : r ∈ V) (hk : r.chunkId = k) :
    findByChunkId V k = some r := by
  induction V with
  | nil => simp at hr
  | cons a V ih =>
      simp only [List.map_cons, List.nodup_cons] at hnd
      rcases List.mem_cons.mp hr with h1 | h1
      · subst h1
        simp [findByChunkId, hk]
      · have hne : a.chunkId ≠ k := by
          intro he
          refine hnd.1 ?_
          rw [he, ← hk]
          exact List.mem_map_of_mem SearchResult.chunkId h1
        simp only [findByChunkId, if_neg hne]
        exact ih hnd.2 h1

theorem findByChunkId_mem (V : List SearchResult) (k : String) (r : SearchResult)
    (h : findByChunkId V k = some r) : r ∈ V ∧ r.chunkId = k := by
  induction V with
  | nil => simp [findByChunkId] at h
  | cons a V ih =>
      by_cases ha : a.chunkId = k
      · simp only [findByChunkId, if_pos ha] at h
        injection h with h
        subst h
        exact ⟨List.mem_cons_self _ _, ha⟩
      · simp only [findByChunkId, if_neg ha] at h
        obtain ⟨h1, h2⟩ := ih h
        exact ⟨List.mem_cons_of_mem _ h1, h2⟩

theorem vectorPhase_cons (m : List (String × SearchResult)) (r : SearchResult)
    (V : List SearchResult) :
    vectorPhase m (r :: V) = vectorPhase (JsMap.set m r.chunkId (scaleVec r)) V := rfl

theorem keywordPhase_cons (m : List (String × SearchResult)) (s : SearchResult)
    (K : List SearchResult) :
    keywordPhase m (s :: K) =
      keywordPhase
        (match JsMap.get m s.chunkId with
          | some existing => JsMap.set m s.chunkId (blendKeyword existing s)
          | none => JsMap.set m s.chunkId (scaleLex s)) K := rfl

theorem vectorPhase_get (V : List SearchResult) (m : List (String × SearchResult)) (k : String)
    (hnd : (V.map SearchResult.chunkId).Nodup) :
    JsMap.get (vectorPhase m V) k =
      match findByChunkId V k with
      | some r => some (scaleVec r)
      | none => JsMap.get m k := by
  induction V generalizing m with
  | nil => rfl
  | cons r V ih =>
      simp only [List.map_cons, List.nodup_cons] at hnd
      rw [vectorPhase_cons, ih _ hnd.2]
      by_cases hk : r.chunkId = k
      · have hfindV : findByChunkId V k = none := by
          refine findByChunkId_eq_none V k ?_
          rw [← hk]
          exact hnd.1
        simp only [findByChunkId, if_pos hk, hfindV]
        rw [← hk]
        exact JsMap.get_set_self m r.chunkId (scaleVec r)
      · simp only [findByChunkId, if_neg hk]
        cases hfind : findByChunkId V k with
        | some r2 => rfl
        | none =>
            simp only []
            exact JsMap.get_set_ne m r.chunkId k (scaleVec r) (fun he => hk he.symm)

theorem keywordPhase_get (K : List SearchResult) (m : List (String × SearchResult)) (k : String)
    (hnd : (K.map SearchResult.chunkId).Nodup) :
    JsMap.get (keywordPhase m K) k =
      match findByChunkId K k with
      | some s =>
          match JsMap.get m k with
          | some e => some (blendKeyword e s)
          | none => some (scaleLex s)
      | none => JsMap.get m k := by
  induction K generalizing m with
  | nil => rfl
  | cons s K ih =>
      simp only [List.map_cons, List.nodup_cons] at hnd
      rw [keywordPhase_cons, ih _ hnd.2]
      by_cases hk : s.chunkId = k
      · have hfindK : findByChunkId K k = none := by
          refine findByChunkId_eq_none K k ?_
          rw [← hk]
          exact hnd.1
        simp only [findByChunkId, if_pos hk, hfindK]
        rw [← hk]
        cases hget : JsMap.get m s.chunkId with
        | some e =>
            simp only []
            exact JsMap.get_set_self m s.chunkId (blendKeyword e s)
        | none =>
            simp only []
            exact JsMap.get_set_self m s.chunkId (scaleLex s)
      · simp only [findByChunkId, if_neg hk]
        have hne : k ≠ s.chunkId := fun he => hk he.symm
        have hstep :
            JsMap.get
              (match JsMap.get m s.chunkId with
                | some existing => JsMap.set m s.chunkId (blendKeyword existing s)
                | none => JsMap.set m s.chunkId (scaleLex s)) k = JsMap.get m k := by
          cases hget : JsMap.get m s.chunkId with
          | some e =>
              simp only []
              exact JsMap.get_set_ne m s.chunkId k (blendKeyword e s) hne
          | none =>
              simp only []
              exact JsMap.get_set_ne m s.chunkId k (scaleLex s) hne
        rw [hstep]

theorem wellFormed_set (m : List (String × SearchResult)) (k : String) (v : SearchResult)
    (hm : WellFormedMap m) (hv : v.chunkId = k) : WellFormedMap (JsMap.set m k v) := by
  induction m with
  | nil =>
      intro p hp
      simp only [JsMap.set, List.mem_singleton] at hp
      rw [hp]
      exact hv
  | cons q m ih =>
      intro p hp
      by_cases h : q.1 = k
      · rw [JsMap.set_cons_pos q m k v h] at hp
        rcases List.mem_cons.mp hp with h1 | h1
        · rw [h1]
          exact hv
        · exact hm p (List.mem_cons_of_mem _ h1)
      · rw [JsMap.set_cons_neg q m k v h] at hp
        rcases List.mem_cons.mp hp with h1 | h1
        · rw [h1]
          exact hm q (List.mem_cons_self _ _)
        · exact ih (fun p2 hp2 => hm p2 (List.mem_cons_of_mem _ hp2)) p h1

theorem wellFormed_vectorPhase (V : List SearchResult) (m : List (String × SearchResult))
    (hm : WellFormedMap m) : WellFormedMap (vectorPhase m V) := by
  induction V generalizing m with
  | nil => exact hm
  | cons r V ih =>
      rw [vectorPhase_cons]
      exact ih _ (wellFormed_set m r.chunkId (scaleVec r) hm rfl)

theorem wellFormed_keywordPhase (K : List SearchResult) (m : List (String × SearchResult))
    (hm : WellFormedMap m) : WellFormedMap (keywordPhase m K) := by
  induction K generalizing m with
  | nil => exact hm
  | cons s K ih =>
      rw [keywordPhase_cons]
      cases hget : JsMap.get m s.chunkId with
      | some e =>
          simp only [hget]
          refine ih _ (wellFormed_set m s.chunkId (blendKeyword e s) hm ?_)
          have he : e.chunkId = s.chunkId := hm (s.chunkId, e) (JsMap.mem_of_get m s.chunkId e hget)
          exact he
      | none =>
          simp only [hget]
          exact ih _ (wellFormed_set m s.chunkId (scaleLex s) hm rfl)

theorem keys_nodup_vectorPhase (V : List SearchResult) (m : List (String × SearchResult))
    (hm : (JsMap.keys m).Nodup) : (JsMap.keys (vectorPhase m V)).Nodup := by
  induction V generalizing m with
  | nil => exact hm
  | cons r V ih =>
      rw [vectorPhase_cons]
      exact ih _ (JsMap.keys_nodup_set m r.chunkId (scaleVec r) hm)

theorem keys_nodup_keywordPhase (K : List SearchResult) (m : List (String × SearchResult))
    (hm : (JsMap.keys m).Nodup) : (JsMap.keys (keywordPhase m K)).Nodup := by
  induction K generalizing m with
  | nil => exact hm
  | cons s K ih =>
      rw [keywordPhase_cons]
      cases hget : JsMap.get m s.chunkId with
      | some e =>
          simp only [hget]
          exact ih _ (JsMap.keys_nodup_set m s.chunkId (blendKeyword e s) hm)
      | none =>
          simp only [hget]
          exact ih _ (JsMap.keys_nodup_set m s.chunkId (scaleLex s) hm)

theorem values_map_chunkId (m : List (String × SearchResult)) (hwf : WellFormedMap m) :
    (JsMap.values m).map SearchResult.chunkId = JsMap.keys m := by
  induction m with
  | nil => rfl
  | cons p m ih =>
      simp only [JsMap.values, JsMap.keys, List.map_cons] at *
      refine congrArg₂ List.cons ?_ (ih (fun q hq => hwf q (List.mem_cons_of_mem _ hq)))
      exact hwf p (List.mem_cons_self _ _)

theorem values_mem_of_get (m : List (String × SearchResult)) (k : String) (t : SearchResult)
    (h : JsMap.get m k = some t) : t ∈ JsMap.values m :=
  List.mem_map_of_mem Prod.snd (JsMap.mem_of_get m k t h)

theorem vectorPhase_eq_nil_iff (V : List SearchResult) (m : List (String × SearchResult)) :
    vectorPhase m V = [] ↔ m = [] ∧ V = [] := by
  induction V generalizing m with
  | nil => simp [vectorPhase]
  | cons r V ih =>
      rw [vectorPhase_cons, ih]
      simp only [List.cons_ne_nil, and_false, iff_false, not_and]
      intro hset
      exact absurd hset (JsMap.set_ne_nil m r.chunkId (scaleVec r))

theorem keywordPhase_eq_nil_iff (K : List SearchResult) (m : List (String × SearchResult)) :
    keywordPhase m K = [] ↔ m = [] ∧ K = [] := by
  induction K generalizing m with
  | nil => simp [keywordPhase]
  | cons s K ih =>
      rw [keywordPhase_cons]
      cases hget : JsMap.get m s.chunkId with
      | some e =>
          simp only [hget, ih]
          simp only [List.cons_ne_nil, and_false, iff_false, not_and]
          intro hset
          exact absurd hset (JsMap.set_ne_nil m s.chunkId (blendKeyword e s))
      | none =>
          simp only [hget, ih]
          simp only [List.cons_ne_nil, and_false, iff_false, not_and]
          intro hset
          exact absurd hset (JsMap.set_ne_nil m s.chunkId (scaleLex s))

theorem rankAndCombineResults_eq_nil_iff (V K : List SearchResult) :
    rankAndCombineResults V K = [] ↔ V = [] ∧ K = [] := by
  unfold rankAndCombineResults
  rw [sortByScoreDesc_eq_nil_iff]
  have hvals : JsMap.values (keywordPhase (vectorPhase [] V) K) = [] ↔
      keywordPhase (vectorPhase [] V) K = [] := by
    simp [JsMap.values]
  rw [hvals, keywordPhase_eq_nil_iff, vectorPhase_eq_nil_iff]
  tauto

theorem values_vectorPhase_subset (V : List SearchResult) (m : List (String × SearchResult))
    (t : SearchResult) (h : t ∈ JsMap.values (vectorPhase m V)) :
    t ∈ JsMap.values m ∨ ∃ r ∈ V, t = scaleVec r := by
  induction V generalizing m with
  | nil => exact Or.inl h
  | cons r V ih =>
      rw [vectorPhase_cons] at h
      rcases ih _ h with h1 | ⟨r2, hr2, ht⟩
      · rcases JsMap.values_set_subset m r.chunkId (scaleVec r) t h1 with h2 | h2
        · exact Or.inr ⟨r, List.mem_cons_self _ _, h2⟩
        · exact Or.inl h2
      · exact Or.inr ⟨r2, List.mem_cons_of_mem _ hr2, ht⟩

theorem JsMap.key_inj {α : Type} (m : List (String × α)) (hnd : (JsMap.keys m).Nodup)
    (a b : String × α) (ha : a ∈ m) (hb : b ∈ m) (hk : a.1 = b.1) : a = b := by
  induction m with
  | nil => simp at ha
  | cons c m ih =>
      simp only [JsMap.keys, List.map_cons, List.nodup_cons] at hnd
      rcases List.mem_cons.mp ha with ha1 | ha1 <;> rcases List.mem_cons.mp hb with hb1 | hb1
      · rw [ha1, hb1]
      · exfalso
        refine hnd.1 ?_
        have hcb : c.1 = b.1 := by
          rw [← ha1]
          exact hk
        rw [hcb]
        exact List.mem_map_of_mem Prod.fst hb1
      · exfalso
        refine hnd.1 ?_
        have hca : c.1 = a.1 := by
          rw [← hb1]
          exact hk.symm
        rw [hca]
        exact List.mem_map_of_mem Prod.fst ha1
      · exact ih hnd.2 ha1 hb1

namespace ShardedStorageManager

theorem foldl_add_length (l : List ShardCache) (n : Nat) :
    l.foldl (fun sum c => sum + c.data.length) n = n + (l.map (fun c => c.data.length)).sum := by
  induction l generalizing n with
  | nil => simp
  | cons c l ih =>
      simp only [List.foldl_cons, List.map_cons, List.sum_cons]
      rw [ih]
      omega

theorem getCacheSize_eq (m : Cache) :
    getCacheSize m = (m.map (fun p => p.2.data.length)).sum := by
  unfold getCacheSize
  rw [foldl_add_length]
  simp only [JsMap.values, List.map_map, Nat.zero_add]
  rfl

theorem getCacheSize_set_le (m : Cache) (k : String) (v : ShardCache) :
    getCacheSize (JsMap.set m k v) ≤ getCacheSize m + v.data.length := by
  rw [getCacheSize_eq, getCacheSize_eq]
  induction m with
  | nil => simp [JsMap.set]
  | cons p m ih =>
      by_cases h : p.1 = k
      · rw [JsMap.set_cons_pos p m k v h]
        simp only [List.map_cons, List.sum_cons]
        omega
      · rw [JsMap.set_cons_neg p m k v h]
        simp only [List.map_cons, List.sum_cons]
        omega

theorem oldestEntry_min (cache : Cache) (p : String × ShardCache)
    (hp : oldestEntry cache = some p) :
    p ∈ cache ∧ ∀ q ∈ cache, p.2.lastAccessed ≤ q.2.lastAccessed := by
  unfold oldestEntry at hp
  have hperm : List.Perm (List.insertionSort accessedLe cache) cache :=
    List.perm_insertionSort accessedLe cache
  have hsorted : (List.insertionSort accessedLe cache).Sorted accessedLe :=
    List.sorted_insertionSort accessedLe cache
  cases hs : List.insertionSort accessedLe cache with
  | nil =>
      rw [hs] at hp
      simp at hp
  | cons a t =>
      rw [hs] at hp hperm hsorted
      simp only [List.head?] at hp
      injection hp with hp
      subst hp
      refine ⟨hperm.mem_iff.mp (List.mem_cons_self _ _), ?_⟩
      intro q hq
      rcases List.mem_cons.mp (hperm.mem_iff.mpr hq) with h | h
      · rw [h]
      · exact (List.sorted_cons.mp hsorted).1 q h

theorem evictLoop_some_le (fuel : Nat) (cache : Cache) (inc : Nat) (m2 : Cache)
    (h : evictLoop fuel cache inc = some m2) :
    getCacheSize m2 + inc ≤ MAX_CACHE_SIZE := by
  induction fuel generalizing cache with
  | zero =>
      simp only [evictLoop] at h
      by_cases hc : MAX_CACHE_SIZE < getCacheSize cache + inc
      · rw [if_pos hc] at h
        exact absurd h (by simp)
      · rw [if_neg hc] at h
        injection h with h
        subst h
        omega
  | succ fuel ih =>
      simp only [evictLoop] at h
      by_cases hc : MAX_CACHE_SIZE < getCacheSize cache + inc
      · rw [if_pos hc] at h
        cases ho : oldestEntry cache with
        | some p0 =>
            rw [ho] at h
            exact ih _ h
        | none =>
            rw [ho] at h
            exact absurd h (by simp)
      · rw [if_neg hc] at h
        injection h with h
        subst h
        omega

theorem evictLoop_lru (fuel : Nat) (cache : Cache) (inc : Nat) (m2 : Cache)
    (hnd : (JsMap.keys cache).Nodup) (h : evictLoop fuel cache inc = some m2) :
    List.Sublist m2 cache ∧
      ∀ p ∈ cache, p ∉ m2 → ∀ q ∈ m2, p.2.lastAccessed ≤ q.2.lastAccessed := by
  induction fuel generalizing cache with
  | zero =>
      simp only [evictLoop] at h
      by_cases hc : MAX_CACHE_SIZE < getCacheSize cache + inc
      · rw [if_pos hc] at h
        exact absurd h (by simp)
      · rw [if_neg hc] at h
        injection h with h
        subst h
        exact ⟨List.Sublist.refl _, fun p hp hpn => absurd hp hpn⟩
  | succ fuel ih =>
      simp only [evictLoop] at h
      by_cases hc : MAX_CACHE_SIZE < getCacheSize cache + inc
      · rw [if_pos hc] at h
        cases ho : oldestEntry cache with
        | none =>
            rw [ho] at h
            exact absurd h (by simp)
        | some p0 =>
            rw [ho] at h
            obtain ⟨hp0mem, hp0min⟩ := oldestEntry_min cache p0 ho
            have hnd2 : (JsMap.keys (JsMap.del cache p0.1)).Nodup :=
              hnd.sublist ((JsMap.del_sublist cache p0.1).map Prod.fst)
            obtain ⟨hsub2, hmin2⟩ := ih (JsMap.del cache p0.1) hnd2 h
            have hsub3 : List.Sublist m2 cache :=
              hsub2.trans (JsMap.del_sublist cache p0.1)
            refine ⟨hsub3, ?_⟩
            intro p hp hpn q hq
            by_cases hpd : p ∈ JsMap.del cache p0.1
            · exact hmin2 p hpd hpn q hq
            · have hkey : p.1 = p0.1 := by
                by_contra hne
                exact hpd ((JsMap.mem_del cache p0.1 p).mpr ⟨hp, hne⟩)
              have hpp0 : p = p0 := JsMap.key_inj cache hnd p p0 hp hp0mem hkey
              rw [hpp0]
              exact hp0min q (hsub3.subset hq)
      · rw [if_neg hc] at h
        injection h with h
        subst h
        exact ⟨List.Sublist.refl _, fun p hp hpn => absurd hp hpn⟩

theorem updateCache_some_le (cache : Cache) (sid : String) (data : List Nat) (now : Int)
    (m2 : Cache) (h : updateCache cache sid data now = some m2) :
    getCacheSize m2 ≤ MAX_CACHE_SIZE := by
  unfold updateCache at h
  rcases Option.map_eq_some'.mp h with ⟨c0, hc0, hm2⟩
  have h1 := evictLoop_some_le cache.length cache data.length c0 hc0
  have h2 := getCacheSize_set_le c0 sid ⟨sid, data, now⟩
  rw [← hm2]
  exact le_trans h2 h1

theorem updateCache_inserted (cache : Cache) (sid : String) (data : List Nat) (now : Int)
    (m2 : Cache) (h : updateCache cache sid data now = some m2) :
    JsMap.get m2 sid = some ⟨sid, data, now⟩ := by
  unfold updateCache at h
  rcases Option.map_eq_some'.mp h with ⟨c0, _, hm2⟩
  rw [← hm2]
  exact JsMap.get_set_self c0 sid _

theorem applyInserts_aux (ops : List (String × List Nat × Int)) (c m : Cache)
    (h : applyInserts ops c = some m) : m = c ∨ getCacheSize m ≤ MAX_CACHE_SIZE := by
  induction ops generalizing c with
  | nil =>
      simp only [applyInserts] at h
      injection h with h
      exact Or.inl h.symm
  | cons op rest ih =>
      simp only [applyInserts] at h
      cases hu : updateCache c op.1 op.2.1 op.2.2 with
      | none =>
          rw [hu] at h
          exact absurd h (by simp)
      | some c2 =>
          rw [hu] at h
          rcases ih c2 h with h1 | h1
          · right
            rw [h1]
            exact updateCache_some_le c op.1 op.2.1 op.2.2 c2 hu
          · exact Or.inr h1

end ShardedStorageManager

set_option maxRecDepth 8000 in
theorem executeSearchGraphCtx_spec (o : SearchOutcomes) (q : String) :
    executeSearchGraphCtx o q =
      { query := q, originalQuery := q, language := "english", isDualSearch := true,
        vectorResults := outcomeResults o.vectorOutcome ++ [],
        keywordResults := outcomeResults o.keywordOutcome,
        combinedResults := rankAndCombineResults (outcomeResults o.vectorOutcome ++ [])
          (outcomeResults o.keywordOutcome),
        keywords := extractedKeywords o.extractOutcome q,
        errorMessage := none } := by
  obtain ⟨eo, vo, ko⟩ := o
  cases eo <;> cases vo <;> cases ko <;> exact rfl

/-- C1: for all inputs whose chunk ids are duplicate-free, `rankAndCombineResults`
gives a chunk present in both lists the combined score `0.7*v + 0.3*l`, a
vector-only chunk `0.7*v`, a lexical-only chunk `0.3*l`, emits each chunk id
at most once, returns the list sorted descending by combined score, and on
the spec's scenario `V = [{A, 0.9}]`, `L = [{A, 0.6}, {B, 0.4}]` produces `A`
with score 0.81 ranked before `B` with score 0.12. -/
theorem c1_rank_fusion_weighted_merge
    (V K : List SearchResult)
    (hV : (V.map SearchResult.chunkId).Nodup)
    (hK : (K.map SearchResult.chunkId).Nodup) :
    (∀ r ∈ V, ∀ s ∈ K, r.chunkId = s.chunkId →
        ∃ t ∈ rankAndCombineResults V K,
          t.chunkId = r.chunkId ∧ t.score = 7/10 * r.score + 3/10 * s.score)
    ∧ (∀ r ∈ V, (∀ s ∈ K, s.chunkId ≠ r.chunkId) →
        ∃ t ∈ rankAndCombineResults V K,
          t.chunkId = r.chunkId ∧ t.score = 7/10 * r.score)
    ∧ (∀ s ∈ K, (∀ r ∈ V, r.chunkId ≠ s.chunkId) →
        ∃ t ∈ rankAndCombineResults V K,
          t.chunkId = s.chunkId ∧ t.score = 3/10 * s.score)
    ∧ ((rankAndCombineResults V K).map SearchResult.chunkId).Nodup
    ∧ (rankAndCombineResults V K).Pairwise (fun a b => b.score ≤ a.score)
    ∧ rankAndCombineResults [vecA] [lexA, lexB] = [fusedA, fusedB] := by
  refine ⟨?_, ?_, ?_, ?_, ?_, ?_⟩
  · intro r hr s hs hid
    have h1 : JsMap.get (vectorPhase [] V) r.chunkId = some (scaleVec r) := by
      rw [vectorPhase_get V [] r.chunkId hV,
        findByChunkId_eq_some V r.chunkId r hV hr rfl]
    have h2 : JsMap.get (keywordPhase (vectorPhase [] V) K) r.chunkId =
        some (blendKeyword (scaleVec r) s) := by
      rw [keywordPhase_get K _ r.chunkId hK,
        findByChunkId_eq_some K r.chunkId s hK hs hid.symm, h1]
    refine ⟨blendKeyword (scaleVec r) s,
      (mem_sortByScoreDesc _ _).mpr (values_mem_of_get _ _ _ h2), rfl, ?_⟩
    show (scaleVec r).score + s.score * (3/10) = 7/10 * r.score + 3/10 * s.score
    show r.score * (7/10) + s.score * (3/10) = 7/10 * r.score + 3/10 * s.score
    ring
  · intro r hr hnos
    have hfK : findByChunkId K r.chunkId = none := by
      refine findByChunkId_eq_none K r.chunkId ?_
      intro hmem
      rcases List.mem_map.mp hmem with ⟨s, hs, hsid⟩
      exact hnos s hs hsid
    have h1 : JsMap.get (vectorPhase [] V) r.chunkId = some (scaleVec r) := by
      rw [vectorPhase_get V [] r.chunkId hV,
        findByChunkId_eq_some V r.chunkId r hV hr rfl]
    have h2 : JsMap.get (keywordPhase (vectorPhase [] V) K) r.chunkId =
        some (scaleVec r) := by
      rw [keywordPhase_get K _ r.chunkId hK, hfK]
      exact h1
    refine ⟨scaleVec r,
      (mem_sortByScoreDesc _ _).mpr (values_mem_of_get _ _ _ h2), rfl, ?_⟩
    show r.score * (7/10) = 7/10 * r.score
    ring
  · intro s hs hnor
    have hfV : findByChunkId V s.chunkId = none := by
      refine findByChunkId_eq_none V s.chunkId ?_
      intro hmem
      rcases List.mem_map.mp hmem with ⟨r, hr, hrid⟩
      exact hnor r hr hrid
    have h1 : JsMap.get (vectorPhase [] V) s.chunkId = none := by
      rw [vectorPhase_get V [] s.chunkId hV, hfV]
      rfl
    have h2 : JsMap.get (keywordPhase (vectorPhase [] V) K) s.chunkId =
        some (scaleLex s) := by
      rw [keywordPhase_get K _ s.chunkId hK,
        findByChunkId_eq_some K s.chunkId s hK hs rfl, h1]
    refine ⟨scaleLex s,
      (mem_sortByScoreDesc _ _).mpr (values_mem_of_get _ _ _ h2), rfl, ?_⟩
    show s.score * (3/10) = 3/10 * s.score
    ring
  · have hwf : WellFormedMap (keywordPhase (vectorPhase [] V) K) :=
      wellFormed_keywordPhase K (vectorPhase [] V)
        (wellFormed_vectorPhase V [] (fun p hp => absurd hp (List.not_mem_nil p)))
    have hkeys : (JsMap.keys (keywordPhase (vectorPhase [] V) K)).Nodup :=
      keys_nodup_keywordPhase K (vectorPhase [] V)
        (keys_nodup_vectorPhase V [] (by simp [JsMap.keys]))
    have hperm :
        List.Perm ((rankAndCombineResults V K).map SearchResult.chunkId)
          ((JsMap.values (keywordPhase (vectorPhase [] V) K)).map SearchResult.chunkId) :=
      (sortByScoreDesc_perm _).map _
    refine hperm.nodup_iff.mpr ?_
    rw [values_map_chunkId _ hwf]
    exact hkeys
  · exact sortByScoreDesc_sorted _
  · norm_num [vecA, lexA, lexB, fusedA, fusedB, rankAndCombineResults, keywordPhase,
      vectorPhase, JsMap.set, JsMap.get, JsMap.values, sortByScoreDesc, List.insertionSort,
      List.orderedInsert, scaleVec, blendKeyword, scaleLex, scoreGe, jsRound]

/-- C1 witness: the hypotheses of `c1_rank_fusion_weighted_merge` hold at the
spec's scenario inputs, where it yields the blended entry for chunk `A` and
the full fused list `[A = 0.81, B = 0.12]`. -/
theorem c1_rank_fusion_weighted_merge_witness :
    (([vecA].map SearchResult.chunkId).Nodup ∧
      ([lexA, lexB].map SearchResult.chunkId).Nodup)
    ∧ (∃ t ∈ rankAndCombineResults [vecA] [lexA, lexB],
        t.chunkId = vecA.chunkId ∧ t.score = 7/10 * vecA.score + 3/10 * lexA.score)
    ∧ rankAndCombineResults [vecA] [lexA, lexB] = [fusedA, fusedB] := by
  have hV : ([vecA].map SearchResult.chunkId).Nodup := by decide
  have hK : ([lexA, lexB].map SearchResult.chunkId).Nodup := by decide
  have h := c1_rank_fusion_weighted_merge [vecA] [lexA, lexB] hV hK
  refine ⟨⟨hV, hK⟩, ?_, h.2.2.2.2.2⟩
  exact h.1 vecA (List.mem_cons_self _ _) lexA (List.mem_cons_self _ _) rfl

/-- C2 amended: `matchPercentage = round(score * 100)` holds post-combination
for entries present in both input lists and for lexical-only entries (where
it also equals `round(original lexical score * 30)`); a vector-only entry,
however, keeps the `matchPercentage` it carried in the vector input — it is
not recomputed from the weighted score. -/
theorem c2_matchPercentage_post_combination
    (V K : List SearchResult)
    (hV : (V.map SearchResult.chunkId).Nodup)
    (hK : (K.map SearchResult.chunkId).Nodup) :
    (∀ r ∈ V, ∀ s ∈ K, r.chunkId = s.chunkId →
        ∃ t ∈ rankAndCombineResults V K,
          t.chunkId = r.chunkId ∧ t.matchPercentage = jsRound (t.score * 100))
    ∧ (∀ s ∈ K, (∀ r ∈ V, r.chunkId ≠ s.chunkId) →
        ∃ t ∈ rankAndCombineResults V K,
          t.chunkId = s.chunkId ∧ t.matchPercentage = jsRound (s.score * 30)
            ∧ t.matchPercentage = jsRound (t.score * 100))
    ∧ (∀ r ∈ V, (∀ s ∈ K, s.chunkId ≠ r.chunkId) →
        ∃ t ∈ rankAndCombineResults V K,
          t.chunkId = r.chunkId ∧ t.matchPercentage = r.matchPercentage) := by
  refine ⟨?_, ?_, ?_⟩
  · intro r hr s hs hid
    have h1 : JsMap.get (vectorPhase [] V) r.chunkId = some (scaleVec r) := by
      rw [vectorPhase_get V [] r.chunkId hV,
        findByChunkId_eq_some V r.chunkId r hV hr rfl]
    have h2 : JsMap.get (keywordPhase (vectorPhase [] V) K) r.chunkId =
        some (blendKeyword (scaleVec r) s) := by
      rw [keywordPhase_get K _ r.chunkId hK,
        findByChunkId_eq_some K r.chunkId s hK hs hid.symm, h1]
    exact ⟨blendKeyword (scaleVec r) s,
      (mem_sortByScoreDesc _ _).mpr (values_mem_of_get _ _ _ h2), rfl, rfl⟩
  · intro s hs hnor
    have hfV : findByChunkId V s.chunkId = none := by
      refine findByChunkId_eq_none V s.chunkId ?_
      intro hmem
      rcases List.mem_map.mp hmem with ⟨r, hr, hrid⟩
      exact hnor r hr hrid
    have h1 : JsMap.get (vectorPhase [] V) s.chunkId = none := by
      rw [vectorPhase_get V [] s.chunkId hV, hfV]
      rfl
    have h2 : JsMap.get (keywordPhase (vectorPhase [] V) K) s.chunkId =
        some (scaleLex s) := by
      rw [keywordPhase_get K _ s.chunkId hK,
        findByChunkId_eq_some K s.chunkId s hK hs rfl, h1]
    refine ⟨scaleLex s,
      (mem_sortByScoreDesc _ _).mpr (values_mem_of_get _ _ _ h2), rfl, rfl, ?_⟩
    show jsRound (s.score * 30) = jsRound (s.score * (3/10) * 100)
    exact congrArg jsRound (by ring)
  · intro r hr hnos
    have hfK : findByChunkId K r.chunkId = none := by
      refine findByChunkId_eq_none K r.chunkId ?_
      intro hmem
      rcases List.mem_map.mp hmem with ⟨s, hs, hsid⟩
      exact hnos s hs hsid
    have h1 : JsMap.get (vectorPhase [] V) r.chunkId = some (scaleVec r) := by
      rw [vectorPhase_get V [] r.chunkId hV,
        findByChunkId_eq_some V r.chunkId r hV hr rfl]
    have h2 : JsMap.get (keywordPhase (vectorPhase [] V) K) r.chunkId =
        some (scaleVec r) := by
      rw [keywordPhase_get K _ r.chunkId hK, hfK]
      exact h1
    exact ⟨scaleVec r,
      (mem_sortByScoreDesc _ _).mpr (values_mem_of_get _ _ _ h2), rfl, rfl⟩

/-- C2 witness: the amended claim instantiated on the scenario inputs: the
blended entry for chunk `A` has its `matchPercentage` recomputed from the
fused score. -/
theorem c2_matchPercentage_post_combination_witness :
    ([vecA].map SearchResult.chunkId).Nodup
    ∧ ∃ t ∈ rankAndCombineResults [vecA] [lexA, lexB],
        t.chunkId = vecA.chunkId ∧ t.matchPercentage = jsRound (t.score * 100) := by
  have hV : ([vecA].map SearchResult.chunkId).Nodup := by decide
  have hK : ([lexA, lexB].map SearchResult.chunkId).Nodup := by decide
  exact ⟨hV, (c2_matchPercentage_post_combination [vecA] [lexA, lexB] hV hK).1
    vecA (List.mem_cons_self _ _) lexA (List.mem_cons_self _ _) rfl⟩

/-- C2 counterexample: fusing the vector-only input `[{A, score 0.9,
matchPercentage 90}]` against an empty lexical list yields the entry with
combined score 0.63 but `matchPercentage` still 90, not `round(0.63 * 100)
= 63` — the claim's equation fails for vector-only entries. -/
theorem c2_counterexample :
    ∃ t ∈ rankAndCombineResults [vecA] [],
      t.matchPercentage ≠ jsRound (t.score * 100) := by
  have h : rankAndCombineResults [vecA] [] =
      [⟨"doc1", "Doc One", "pdf", "A", "", 63/100, 90, ""⟩] := by
    norm_num [vecA, rankAndCombineResults, keywordPhase, vectorPhase, JsMap.set,
      JsMap.values, sortByScoreDesc, List.insertionSort, List.orderedInsert, scaleVec]
  rw [h]
  refine ⟨_, List.mem_cons_self _ _, ?_⟩
  norm_num [jsRound]

/-- C10: the two textual copies of `rankAndCombineResults` in `langGraph.ts`
are extensionally equal — on every pair of inputs they produce the same
output list (same chunk ids, scores, matchPercentages, order). -/
theorem c10_rank_fusion_copies_equal (v k : List SearchResult) :
    rankAndCombineResultsV2 v k = rankAndCombineResults v k := rfl

theorem isEmpty_eq_false_iff {α : Type} (l : List α) : l.isEmpty = false ↔ l ≠ [] := by
  cases l <;> simp

/-- C3: for every query and every combination of branch outcomes, the
orchestrator returns the fused list when non-empty, else the vector list when
non-empty, else the keyword list (which is `[]` when everything is empty) —
exactly this priority order. -/
theorem c3_result_priority (o : SearchOutcomes) (q : String) :
    executeSearchGraph o q =
      if rankAndCombineResults (outcomeResults o.vectorOutcome)
          (outcomeResults o.keywordOutcome) ≠ [] then
        rankAndCombineResults (outcomeResults o.vectorOutcome)
          (outcomeResults o.keywordOutcome)
      else if outcomeResults o.vectorOutcome ≠ [] then outcomeResults o.vectorOutcome
      else outcomeResults o.keywordOutcome := by
  unfold executeSearchGraph
  rw [executeSearchGraphCtx_spec]
  simp only [List.append_nil, isEmpty_eq_false_iff]

theorem executeSearchGraph_vector_error (eo : Except String (List String)) (e q : String)
    (K : List SearchResult) :
    executeSearchGraph ⟨eo, Except.error e, Except.ok K⟩ q = rankAndCombineResults [] K := by
  unfold executeSearchGraph
  rw [executeSearchGraphCtx_spec]
  simp only [outcomeResults, List.nil_append, List.append_nil, isEmpty_eq_false_iff]
  by_cases hK0 : K = []
  · subst hK0
    simp
  · have hC : rankAndCombineResults [] K ≠ [] := by
      intro hc
      exact hK0 ((rankAndCombineResults_eq_nil_iff _ _).mp hc).2
    simp [hC]

theorem executeSearchGraph_keyword_error (eo : Except String (List String)) (e q : String)
    (V : List SearchResult) :
    executeSearchGraph ⟨eo, Except.ok V, Except.error e⟩ q = rankAndCombineResults V [] := by
  unfold executeSearchGraph
  rw [executeSearchGraphCtx_spec]
  simp only [outcomeResults, List.nil_append, List.append_nil, isEmpty_eq_false_iff]
  by_cases hV0 : V = []
  · subst hV0
    simp
  · have hC : rankAndCombineResults V [] ≠ [] := by
      intro hc
      exact hV0 ((rankAndCombineResults_eq_nil_iff _ _).mp hc).1
    by_cases hVK : rankAndCombineResults V [] = []
    · exact absurd hVK hC
    · simp [hVK, hV0]

theorem mem_rank_nil_left (K : List SearchResult) (t : SearchResult)
    (hK : (K.map SearchResult.chunkId).Nodup) (ht : t ∈ rankAndCombineResults [] K) :
    ∃ s ∈ K, t = scaleLex s := by
  have hval : t ∈ JsMap.values (keywordPhase (vectorPhase [] []) K) :=
    (mem_sortByScoreDesc _ _).mp ht
  rcases List.mem_map.mp hval with ⟨p, hp, hpt⟩
  have hkeys : (JsMap.keys (keywordPhase (vectorPhase [] []) K)).Nodup :=
    keys_nodup_keywordPhase K _ (by simp [vectorPhase, JsMap.keys])
  have hget : JsMap.get (keywordPhase (vectorPhase [] []) K) p.1 = some p.2 := by
    have hp2 : (p.1, p.2) ∈ keywordPhase (vectorPhase [] []) K := by
      obtain ⟨a, b⟩ := p
      exact hp
    exact JsMap.get_of_mem _ p.1 p.2 hkeys hp2
  rw [keywordPhase_get K _ p.1 hK] at hget
  cases hfind : findByChunkId K p.1 with
  | none =>
      rw [hfind] at hget
      simp [vectorPhase, JsMap.get] at hget
  | some s =>
      rw [hfind] at hget
      have hbase : JsMap.get (vectorPhase [] ([] : List SearchResult)) p.1 = none := rfl
      rw [hbase] at hget
      injection hget with hget
      obtain ⟨hsK, _⟩ := findByChunkId_mem K p.1 s hfind
      exact ⟨s, hsK, by rw [← hpt, ← hget]⟩

theorem mem_rank_nil_right (V : List SearchResult) (t : SearchResult)
    (ht : t ∈ rankAndCombineResults V []) : ∃ r ∈ V, t = scaleVec r := by
  have hval : t ∈ JsMap.values (keywordPhase (vectorPhase [] V) []) :=
    (mem_sortByScoreDesc _ _).mp ht
  have hval2 : t ∈ JsMap.values (vectorPhase [] V) := hval
  rcases values_vectorPhase_subset V [] t hval2 with h | ⟨r, hr, hrt⟩
  · simp [JsMap.values] at h
  · exact ⟨r, hr, hrt⟩

/-- C4: a throwing search branch is caught at its own node: its buffer
becomes `[]`, the query completes, and the returned list is exactly the
fusion of the surviving branch alone — every returned entry is a weighted
copy of a surviving-branch entry, and the result is empty only when the
surviving branch returned nothing.  In particular a throwing vector search
(embedding provider down) yields lexical-only results and, the function
being total on every outcome, no exception reaches the caller. -/
theorem c4_branch_failure_isolation (q e : String) :
    (∀ eo K,
      (executeSearchGraphCtx ⟨eo, Except.error e, Except.ok K⟩ q).vectorResults = []
      ∧ executeSearchGraph ⟨eo, Except.error e, Except.ok K⟩ q = rankAndCombineResults [] K
      ∧ ((K.map SearchResult.chunkId).Nodup →
          ∀ t ∈ executeSearchGraph ⟨eo, Except.error e, Except.ok K⟩ q,
            ∃ s ∈ K, t = scaleLex s)
      ∧ (executeSearchGraph ⟨eo, Except.error e, Except.ok K⟩ q = [] ↔ K = []))
    ∧ (∀ eo V,
      (executeSearchGraphCtx ⟨eo, Except.ok V, Except.error e⟩ q).keywordResults = []
      ∧ executeSearchGraph ⟨eo, Except.ok V, Except.error e⟩ q = rankAndCombineResults V []
      ∧ (∀ t ∈ executeSearchGraph ⟨eo, Except.ok V, Except.error e⟩ q,
          ∃ r ∈ V, t = scaleVec r)
      ∧ (executeSearchGraph ⟨eo, Except.ok V, Except.error e⟩ q = [] ↔ V = [])) := by
  constructor
  · intro eo K
    have hres := executeSearchGraph_vector_error eo e q K
    refine ⟨?_, hres, ?_, ?_⟩
    · rw [executeSearchGraphCtx_spec]
      rfl
    · intro hK t ht
      rw [hres] at ht
      exact mem_rank_nil_left K t hK ht
    · rw [hres, rankAndCombineResults_eq_nil_iff]
      simp
  · intro eo V
    have hres := executeSearchGraph_keyword_error eo e q V
    refine ⟨?_, hres, ?_, ?_⟩
    · rw [executeSearchGraphCtx_spec]
      rfl
    · intro t ht
      rw [hres] at ht
      exact mem_rank_nil_right V t ht
    · rw [hres, rankAndCombineResults_eq_nil_iff]
      simp

/-- C4 witness: with the embedding branch throwing and one lexical hit, the
vector buffer is emptied, the orchestrator returns the lexical-only fusion,
and the returned entry is the 0.3-weighted copy of the lexical hit. -/
theorem c4_branch_failure_isolation_witness :
    (executeSearchGraphCtx
        ⟨Except.ok ["kw"], Except.error "boom", Except.ok [lexB]⟩ "q").vectorResults = []
    ∧ executeSearchGraph ⟨Except.ok ["kw"], Except.error "boom", Except.ok [lexB]⟩ "q" =
        rankAndCombineResults [] [lexB]
    ∧ (∃ s ∈ [lexB], scaleLex lexB = scaleLex s) := by
  have h := (c4_branch_failure_isolation "q" "boom").1 (Except.ok ["kw"]) [lexB]
  refine ⟨h.1, h.2.1, ?_⟩
  refine h.2.2.1 (by decide) (scaleLex lexB) ?_
  rw [h.2.1]
  have hr : rankAndCombineResults [] [lexB] = [scaleLex lexB] := rfl
  rw [hr]
  exact List.mem_cons_self _ _

/-- C5 counterexample: a chunk whose 2-dimensional embedding does not match
the 3-dimensional entry already in the index is appended anyway — the add
operation neither fails nor skips it, contradicting the claimed
dimension-mismatch rejection. -/
theorem c5_counterexample :
    addToVectorStore (fun _ => []) [⟨"c0", "d0", "D0", "pdf", [1, 0, 0], ""⟩]
        [⟨"c1", "d1", "text one", some [1/2, 1/2], ""⟩] "Doc One" "txt"
      = [⟨"c0", "d0", "D0", "pdf", [1, 0, 0], ""⟩,
         ⟨"c1", "d1", "Doc One", "txt", [1/2, 1/2], ""⟩]
    ∧ ([1/2, 1/2] : List ℚ).length = 2 ∧ ([1, 0, 0] : List ℚ).length = 3
    ∧ (2 : Nat) ≠ 3 := by
  exact ⟨rfl, rfl, rfl, by decide⟩

/-- C5 amended: `addToVectorStore` performs no dimension check at all — it
appends one entry per chunk unconditionally, whatever the embedding lengths
are; a mismatch only surfaces later, at query time, when `cosineSimilarity`
throws on unequal lengths. -/
theorem c5_amended_append_unconditionally (embedFn : String → List ℚ)
    (vectorIndex : List VectorEntry) (chunks : List DocumentChunk) (n t : String) :
    addToVectorStore embedFn vectorIndex chunks n t =
      vectorIndex ++ chunks.map (chunkToEntry embedFn n t) := by
  induction chunks generalizing vectorIndex with
  | nil => simp [addToVectorStore]
  | cons c cs ih =>
      show addToVectorStore embedFn (vectorIndex ++ [chunkToEntry embedFn n t c]) cs n t = _
      rw [ih]
      simp

theorem sumSquares_eq_zero (a : List ℝ) (h : ∀ x ∈ a, x = 0) : sumSquares a = 0 := by
  induction a with
  | nil => simp [sumSquares]
  | cons x a ih =>
      simp only [sumSquares, List.map_cons, List.sum_cons] at *
      rw [h x (List.mem_cons_self _ _), ih (fun y hy => h y (List.mem_cons_of_mem _ hy))]
      ring

theorem dotProduct_zero_left (a b : List ℝ) (h : ∀ x ∈ a, x = 0) : dotProduct a b = 0 := by
  induction a generalizing b with
  | nil => simp [dotProduct]
  | cons x a ih =>
      cases b with
      | nil => simp [dotProduct]
      | cons y b =>
          simp only [dotProduct, List.zipWith_cons_cons, List.sum_cons] at *
          rw [h x (List.mem_cons_self _ _),
            ih b (fun z hz => h z (List.mem_cons_of_mem _ hz))]
          ring

theorem dotProduct_zero_right (a b : List ℝ) (h : ∀ x ∈ b, x = 0) : dotProduct a b = 0 := by
  induction a generalizing b with
  | nil => simp [dotProduct]
  | cons x a ih =>
      cases b with
      | nil => simp [dotProduct]
      | cons y b =>
          simp only [dotProduct, List.zipWith_cons_cons, List.sum_cons] at *
          rw [h y (List.mem_cons_self _ _),
            ih b (fun z hz => h z (List.mem_cons_of_mem _ hz))]
          ring

/-- C6 amended: on equal-length vectors with a zero-magnitude side, the
Vector Index's `cosineSimilarity` returns exactly 0 (its explicit guard fires
before the division, so no NaN); the Shard Manager's centroid
`cosineSimilarity`, which has no such guard, evaluates `0 / 0` and returns
NaN instead of 0. -/
theorem c6_zero_magnitude (a b : List ℝ) (hlen : a.length = b.length)
    (hz : (∀ x ∈ a, x = 0) ∨ (∀ x ∈ b, x = 0)) :
    VectorStore.cosineSimilarity a b = Except.ok (JsNum.num 0)
    ∧ ShardedStorageManager.cosineSimilarity a b = JsNum.nan := by
  have hmag : Real.sqrt (sumSquares a) = 0 ∨ Real.sqrt (sumSquares b) = 0 := by
    rcases hz with hza | hzb
    · left
      rw [sumSquares_eq_zero a hza, Real.sqrt_zero]
    · right
      rw [sumSquares_eq_zero b hzb, Real.sqrt_zero]
  constructor
  · unfold VectorStore.cosineSimilarity
    rw [if_neg (by simp [hlen]), if_pos hmag]
  · unfold ShardedStorageManager.cosineSimilarity
    have hdot : dotProduct a b = 0 := by
      rcases hz with hza | hzb
      · exact dotProduct_zero_left a b hza
      · exact dotProduct_zero_right a b hzb
    have hden : Real.sqrt (sumSquares a) * Real.sqrt (sumSquares b) = 0 := by
      rcases hmag with hm | hm
      · rw [hm, zero_mul]
      · rw [hm, mul_zero]
    rw [hdot, hden]
    simp [jsDiv]

/-- C6 witness: the amended claim at `a = [0]`, `b = [3]`: the guarded
similarity is 0, the unguarded one is NaN. -/
theorem c6_zero_magnitude_witness :
    VectorStore.cosineSimilarity [(0 : ℝ)] [3] = Except.ok (JsNum.num 0)
    ∧ ShardedStorageManager.cosineSimilarity [(0 : ℝ)] [3] = JsNum.nan :=
  c6_zero_magnitude [(0 : ℝ)] [3] rfl (Or.inl (by simp))

/-- C6 counterexample: on the zero vector the Shard Manager's centroid
cosine similarity is NaN, not the claimed exact 0. -/
theorem c6_counterexample :
    ShardedStorageManager.cosineSimilarity [(0 : ℝ)] [0] = JsNum.nan
    ∧ JsNum.nan ≠ JsNum.num 0 := by
  constructor
  · have hdot : dotProduct [(0 : ℝ)] [0] = 0 := by simp [dotProduct]
    have hsq : sumSquares [(0 : ℝ)] = 0 := by simp [sumSquares]
    unfold ShardedStorageManager.cosineSimilarity
    rw [hdot, hsq, Real.sqrt_zero, zero_mul]
    simp [jsDiv]
  · intro h
    exact JsNum.noConfusion h

/-- C7 counterexample: on the spec's scenario query the shipped
`keywordSearch` returns the empty list, so no chunk ever receives the claimed
lexical score 1.0 (or any score). -/
theorem c7_counterexample :
    keywordSearch "revenue projections Q4" 20 = []
    ∧ ¬ ∃ t ∈ keywordSearch "revenue projections Q4" 20, t.score = 1 := by
  refine ⟨rfl, ?_⟩
  simp [keywordSearch]

/-- C7 amended: the shipped `keywordSearch` returns the empty list — not an
error — for every query and limit; the normalisation/substring-scoring
pipeline of the claim exists only in a commented-out block that never runs. -/
theorem c7_stub_returns_empty (query : String) (limit : Nat) :
    keywordSearch query limit = [] := rfl

/-- C8: (i) after any sequence of `updateCache` insertions that complete
(starting from the empty cache the class constructs), the total byte size of
cached entries never exceeds `MAX_CACHE_SIZE`; (ii) the eviction loop only
ever removes entries, one at a time, each being a least-recently-accessed
entry of the cache at that moment (every evicted entry's `lastAccessed` is
≤ that of every kept entry); (iii) the entry being inserted is present in
the cache afterwards, so it is never the one evicted. -/
theorem c8_cache_budget_lru :
    (∀ ops m, ShardedStorageManager.applyInserts ops [] = some m →
        ShardedStorageManager.getCacheSize m ≤ ShardedStorageManager.MAX_CACHE_SIZE)
    ∧ (∀ fuel cache inc m2, (JsMap.keys cache).Nodup →
        ShardedStorageManager.evictLoop fuel cache inc = some m2 →
          List.Sublist m2 cache ∧
            ∀ p ∈ cache, p ∉ m2 → ∀ q ∈ m2, p.2.lastAccessed ≤ q.2.lastAccessed)
    ∧ (∀ cache sid data now m2,
        ShardedStorageManager.updateCache cache sid data now = some m2 →
          JsMap.get m2 sid = some ⟨sid, data, now⟩) := by
  refine ⟨?_, ?_, ?_⟩
  · intro ops m h
    rcases ShardedStorageManager.applyInserts_aux ops [] m h with h1 | h1
    · rw [h1]
      decide
    · exact h1
  · intro fuel cache inc m2 hnd h
    exact ShardedStorageManager.evictLoop_lru fuel cache inc m2 hnd h
  · intro cache sid data now m2 h
    exact ShardedStorageManager.updateCache_inserted cache sid data now m2 h

/-- C8 witness: one concrete insertion into the empty cache: the resulting
cache is within budget, the (trivial) eviction run removes nothing, and the
inserted entry is retrievable afterwards. -/
theorem c8_cache_budget_lru_witness :
    ShardedStorageManager.applyInserts [("s1", ([7, 7, 7], 5))] [] =
      some [("s1", ⟨"s1", [7, 7, 7], 5⟩)]
    ∧ ShardedStorageManager.getCacheSize [("s1", ⟨"s1", [7, 7, 7], 5⟩)] ≤
        ShardedStorageManager.MAX_CACHE_SIZE
    ∧ List.Sublist ([] : ShardedStorageManager.Cache) []
    ∧ JsMap.get [("s1", (⟨"s1", [7, 7, 7], 5⟩ : ShardedStorageManager.ShardCache))] "s1" =
        some ⟨"s1", [7, 7, 7], 5⟩ := by
  have h1 : ShardedStorageManager.applyInserts [("s1", ([7, 7, 7], 5))] [] =
      some [("s1", ⟨"s1", [7, 7, 7], 5⟩)] := rfl
  have h2 : ShardedStorageManager.updateCache [] "s1" [7, 7, 7] 5 =
      some [("s1", ⟨"s1", [7, 7, 7], 5⟩)] := rfl
  refine ⟨h1, c8_cache_budget_lru.1 [("s1", ([7, 7, 7], 5))] _ h1, ?_, ?_⟩
  · exact (c8_cache_budget_lru.2.1 0 [] 7 [] (by decide) rfl).1
  · exact c8_cache_budget_lru.2.2 [] "s1" [7, 7, 7] 5 _ h2

set_option maxRecDepth 2000 in
/-- C9: the retrieval-side bloom membership test yields a guaranteed false
negative: `simpleHash "aaaaaa"` is the negative 32-bit-wrapped value
-1425372064, JS `%` keeps the sign, `charAt` of the negative index -12
returns the empty string, and so `checkBloomFilter` is `false` on the term
`"aaaaaa"` for EVERY 26-character filter — in particular after the term has
been added to the filter.  This contradicts the zero-false-negative contract
the spec calls non-negotiable. -/
theorem c9_bloom_false_negative (f : String) (h : f.data.length = 26) :
    ShardedStorageManager.checkBloomFilter
      (ShardedStorageManager.addToBloomFilter f "aaaaaa") "aaaaaa" = false := by
  have hh : ShardedStorageManager.simpleHash "aaaaaa" = -1425372064 := by decide
  have hAdd : ShardedStorageManager.addToBloomFilter f "aaaaaa" = f := by
    simp only [ShardedStorageManager.addToBloomFilter, hh, h]
    rw [if_neg (by decide)]
  rw [hAdd]
  simp only [ShardedStorageManager.checkBloomFilter, hh, h]
  rw [if_neg (by decide)]

/-- C9 witness: the all-ones filter of length 26 still reports the inserted
term `"aaaaaa"` as absent. -/
theorem c9_bloom_false_negative_witness :
    ShardedStorageManager.checkBloomFilter
      (ShardedStorageManager.addToBloomFilter "11111111111111111111111111" "aaaaaa")
      "aaaaaa" = false :=
  c9_bloom_false_negative "11111111111111111111111111" (by decide)
